import Mathlib

/-!
Verification of the number-theoretic core of `rcrypt` (`src/num_ext/mod.rs`)
against its specification.

The Rust code works on `BigUint` (arbitrary-precision non-negative integers),
embedded here as `Nat`.  Rust `BigUint` subtraction/`%` panic on underflow /
zero modulus; panics are modelled by `Option.none`.  The random draws made by
`thread_rng().gen_biguint_range` are modelled as an explicit input stream of
naturals; the support of a single draw is the predicate `validWitness`.
Loops whose Rust counterparts are `while`/`loop` statements are embedded with
an explicit fuel argument so that every definition is executable by the
kernel; each fuel value is chosen so that exhaustion is unreachable exactly
when the Rust loop terminates (comments at each definition say why).
-/

/-- A single checked Rust `%` on `BigUint`: `%` by zero panics, modelled by
`none`. -/
def checkedMod (a m : Nat) : Option Nat :=
  if m = 0 then none else some (a % m)

/-- The `while exp_acc > zero` loop of `mod_exp` in `src/num_ext/mod.rs`
(lines 163-178).  Arguments: modulus, fuel, `base_acc`, `exp_acc`, `result`.
The loop runs once per bit of the exponent, so fuel `e + 1` (supplied by
`mod_exp`) is never exhausted; the `none` on fuel 0 is unreachable. -/
def mod_exp_go (modulus : Nat) : Nat → Nat → Nat → Nat → Option Nat
  | 0, _, _, _ => none
  | fuel+1, base_acc, exp_acc, result =>
    if exp_acc > 0 then
      match (if exp_acc % 2 = 1 then checkedMod (result * base_acc) modulus
             else some result) with
      | none => none
      | some result' =>
        match checkedMod (base_acc * base_acc) modulus with
        | none => none
        | some base' => mod_exp_go modulus fuel base' (exp_acc / 2) result'
    else some result

/-- `mod_exp(base, exponent, modulus)` from `src/num_ext/mod.rs` lines
163-178: square-and-multiply, right to left.  `none` models the Rust panic
on `%` by a zero modulus. -/
def mod_exp (base exponent modulus : Nat) : Option Nat :=
  mod_exp_go modulus (exponent + 1) base exponent 1

/-- Modelled from the spec: the "slow reference of repeated multiplication"
for `(b^e) mod m` (spec section 8); `pow_mod_ref b 0 m` is `1 mod m`. -/
def pow_mod_ref (b : Nat) : Nat → Nat → Nat
  | 0, m => 1 % m
  | e+1, m => pow_mod_ref b e m * b % m

/-- The witness-decomposition loop of `miller_rabin` (lines 94-99):
`while d.is_even() { d = d >> 1; s = s + 1 }`.  Arguments: fuel, `d`, `s`.
The callers start from `d = n - 1`; for `d ≥ 1` the loop runs at most
`log2 d < fuel` times when fuel is the initial `d`, so fuel is never
exhausted (for `d = 0`, i.e. `n ≤ 1`, the Rust loop never terminates;
no caller reaches that case). -/
def decomposeGo : Nat → Nat → Nat → Nat × Nat
  | 0, d, s => (d, s)
  | fuel+1, d, s => if d % 2 = 0 then decomposeGo fuel (d / 2) (s + 1) else (d, s)

/-- The support of one random draw
`thread_rng().gen_biguint_range(&two, &(n - two))` (line 140): `rand`'s
`gen_biguint_range(lo, hi)` samples the half-open range `[lo, hi)`. -/
def validWitness (n a : Nat) : Prop := 2 ≤ a ∧ a < n - 2

instance (n a : Nat) : Decidable (validWitness n a) := by
  unfold validWitness; infer_instance

/-- The inner `loop` of `miller_rabin_thread` (lines 149-158): squares `x`
until it hits `n - 1`, declaring the candidate composite if `x` reaches 1 or
the counter `i` reaches `s - 1`.  Arguments: `n`, `s`, fuel, `x`, `i`.
`some true` = round passes, `some false` = composite, `none` = panic.
Entered with `i = 0` and fuel `s`; since `i` increments once per iteration
and the loop returns at `i = s - 1`, fuel is exhausted only when `s = 0`,
in which case the Rust code panics on the underflow `s - 1` anyway. -/
def mrInnerFuel (n s : Nat) : Nat → Nat → Nat → Option Bool
  | 0, _, _ => none
  | fuel+1, x, i =>
    (mod_exp x 2 n).bind (fun x2 =>
      if x2 = 1 ∨ i = s - 1 then some false
      else if x2 = n - 1 then some true
      else mrInnerFuel n s fuel x2 (i+1))

/-- One round of `miller_rabin_thread` (lines 138-158) with witness `a`:
compute `x = mod_exp(a, d, n)`; the round passes if `x` is `1` or `n - 1`,
otherwise the inner squaring loop decides. -/
def mrRound (n d s a : Nat) : Option Bool :=
  (mod_exp a d n).bind (fun x =>
    if x = 1 ∨ x = n - 1 then some true
    else mrInnerFuel n s s x 0)

/-- The `for _ in 0..k` round loop of `miller_rabin_thread` (lines 138-159).
Arguments: `n`, `d`, `s`, the draw stream `ws` (`ws j` is the `j`-th draw),
the index of the next draw, and the number of remaining rounds.  Returns
`false` at the first failing round, `true` when all rounds pass. -/
def mrLoop (n d s : Nat) (ws : Nat → Nat) : Nat → Nat → Option Bool
  | _, 0 => some true
  | j, rem+1 =>
    (mrRound n d s (ws j)).bind (fun r =>
      if r then mrLoop n d s ws (j+1) rem else some false)

/-- `miller_rabin_thread(n, d, s, k)` from lines 134-161, with the `k`
random draws supplied as the stream `ws`. -/
def miller_rabin_thread (n d s k : Nat) (ws : Nat → Nat) : Option Bool :=
  mrLoop n d s ws 0 k

/-- The receive loop of `miller_rabin`'s threaded branch (lines 122-128):
all 8 worker results are collected (no early exit) and conjoined; a failed
`recv` (`none`) is a panic (`"A thread failed"`). -/
def joinWorkers : List (Option Bool) → Option Bool
  | [] => some true
  | r :: rest =>
    match r with
    | none => none
    | some b =>
      match joinWorkers rest with
      | none => none
      | some acc => some (b && acc)

/-- `miller_rabin(n, k, thread)` from lines 90-132: decompose `n - 1` as
`d * 2^s` with `d` odd, then either run `k` rounds on the calling thread or
spawn 8 workers each running `k / 8` rounds and conjoin their verdicts.
`ws w j` is worker `w`'s `j`-th random draw (the sequential branch draws
from worker stream 0). -/
def miller_rabin (n k : Nat) (thread : Bool) (ws : Nat → Nat → Nat) : Option Bool :=
  let p := decomposeGo (n - 1) (n - 1) 0
  if thread then
    joinWorkers ((List.range 8).map (fun w => miller_rabin_thread n p.1 p.2 (k / 8) (ws w)))
  else
    miller_rabin_thread n p.1 p.2 k (ws 0)

/-- `is_prime_helper(n, thread)` from lines 78-88: short-circuit 2 and 3 to
`true`, values below 2 and even values to `false`, otherwise run
`miller_rabin` with 100 rounds. -/
def is_prime_helper (n : Nat) (thread : Bool) (ws : Nat → Nat → Nat) : Option Bool :=
  if n = 3 ∨ n = 2 then some true
  else if n < 2 ∨ n % 2 = 0 then some false
  else miller_rabin n 100 thread ws

/-- The `while !is_prime_helper(..)` search loop of `next_prime_helper`
(lines 72-74).  `draws c` is the random-draw table used when testing
candidate `c`; fuel bounds the number of candidates tried (the Rust loop
has no bound: it runs until a candidate passes). -/
def next_prime_go (thread : Bool) (draws : Nat → Nat → Nat → Nat) : Nat → Nat → Option Nat
  | 0, _ => none
  | fuel+1, c =>
    match is_prime_helper c thread (draws c) with
    | none => none
    | some true => some c
    | some false => next_prime_go thread draws fuel (c + 2)

/-- `next_prime_helper(n, thread)` from lines 63-76: the first candidate is
`n + 1` when `n` is even, else `n + 2`; candidates then advance by 2. -/
def next_prime_helper (n : Nat) (thread : Bool) (draws : Nat → Nat → Nat → Nat)
    (fuel : Nat) : Option Nat :=
  next_prime_go thread draws fuel (if n % 2 = 0 then n + 1 else n + 2)

/-- `gcdext` from lines 36-39: the body ignores its arguments and returns
three zeros. -/
def gcdext (a b : Nat) : Nat × Nat × Nat := (0, 0, 0)

/-! ## Behaviour of `mod_exp` -/

lemma mod_exp_go_exp_zero (m b r fuel : Nat) (h : 1 ≤ fuel) :
    mod_exp_go m fuel b 0 r = some r := by
  cases fuel with
  | zero => omega
  | succ f => simp [mod_exp_go]

lemma mod_exp_go_eq (m : Nat) (hm : 1 ≤ m) :
    ∀ fuel e b r, 1 ≤ e → e + 1 ≤ fuel →
      mod_exp_go m fuel b e r = some (r * b ^ e % m) := by
  intro fuel
  induction fuel with
  | zero => intro e b r he hf; omega
  | succ f ih =>
    intro e b r he hf
    have hm0 : m ≠ 0 := by omega
    simp only [mod_exp_go, if_pos (by omega : e > 0)]
    rcases Nat.lt_or_ge e 2 with h2 | h2
    · -- e = 1 : one multiply, then the exponent is 0
      have he1 : e = 1 := by omega
      subst he1
      simp only [checkedMod, if_neg hm0, show (1:Nat) % 2 = 1 from rfl,
        show (1:Nat) / 2 = 0 from rfl, if_pos rfl, if_true, pow_one]
      rw [mod_exp_go_exp_zero m (b * b % m) (r * b % m) f (by omega)]
    · -- e ≥ 2 : recurse on e / 2
      have hrec := ih (e / 2) (b * b % m)
        (if e % 2 = 1 then r * b % m else r) (by omega) (by omega)
      have step :
          (if e % 2 = 1 then checkedMod (r * b) m else some r) =
            some (if e % 2 = 1 then r * b % m else r) := by
        by_cases h : e % 2 = 1 <;> simp [h, checkedMod, hm0]
      rw [step]
      simp only [checkedMod, if_neg hm0]
      rw [hrec]
      congr 1
      have h1 : (if e % 2 = 1 then r * b % m else r) % m = r * b ^ (e % 2) % m := by
        by_cases h : e % 2 = 1
        · rw [if_pos h, h, pow_one, Nat.mod_mod_of_dvd _ (dvd_refl m)]
        · have h0 : e % 2 = 0 := by omega
          rw [if_neg h, h0, pow_zero, mul_one]
      calc (if e % 2 = 1 then r * b % m else r) * (b * b % m) ^ (e / 2) % m
          = (if e % 2 = 1 then r * b % m else r) % m *
              ((b * b % m) ^ (e / 2) % m) % m := by
            rw [← Nat.mul_mod]
        _ = r * b ^ (e % 2) % m * ((b * b) ^ (e / 2) % m) % m := by
            rw [h1, ← Nat.pow_mod]
        _ = r * b ^ (e % 2) * (b * b) ^ (e / 2) % m := by
            rw [← Nat.mul_mod]
        _ = r * b ^ e % m := by
            rw [← pow_two, ← pow_mul, mul_assoc, ← pow_add]
            have hsplit : e % 2 + 2 * (e / 2) = e := by omega
            rw [hsplit]

lemma mod_exp_eq_pow_mod (b e m : Nat) (hm : 1 ≤ m) (he : 1 ≤ e) :
    mod_exp b e m = some (b ^ e % m) := by
  unfold mod_exp
  rw [mod_exp_go_eq m hm (e + 1) e b 1 he (by omega)]
  simp

lemma mod_exp_exp_zero (b m : Nat) : mod_exp b 0 m = some 1 := by
  simp [mod_exp, mod_exp_go]

lemma mod_exp_mod_zero (b e : Nat) (he : 1 ≤ e) : mod_exp b e 0 = none := by
  unfold mod_exp
  cases e with
  | zero => omega
  | succ e' =>
    simp only [mod_exp_go, if_pos (by omega : e' + 1 > 0)]
    by_cases h : (e' + 1) % 2 = 1 <;> simp [h, checkedMod]

lemma pow_mod_ref_eq (b m : Nat) : ∀ e, pow_mod_ref b e m = b ^ e % m := by
  intro e
  induction e with
  | zero => simp [pow_mod_ref]
  | succ e ih =>
    rw [pow_mod_ref, ih, pow_succ]
    conv_rhs => rw [Nat.mul_mod]
    rw [Nat.mul_mod (b ^ e % m) b m, Nat.mod_mod_of_dvd _ (dvd_refl m)]

/-! ## The witness decomposition -/

lemma decomposeGo_spec :
    ∀ fuel d s0, 1 ≤ d → d ≤ 2 ^ fuel →
      (decomposeGo fuel d s0).1 % 2 = 1 ∧
      (decomposeGo fuel d s0).1 * 2 ^ ((decomposeGo fuel d s0).2 - s0) = d ∧
      s0 ≤ (decomposeGo fuel d s0).2 ∧
      (d % 2 = 0 → s0 < (decomposeGo fuel d s0).2) := by
  intro fuel
  induction fuel with
  | zero =>
    intro d s0 hd hle
    have hd1 : d = 1 := by simpa using (by omega : d = 1)
    subst hd1
    simp [decomposeGo]
  | succ f ih =>
    intro d s0 hd hle
    by_cases hpar : d % 2 = 0
    · have hrec := ih (d / 2) (s0 + 1) (by omega)
        (by rw [pow_succ] at hle; omega)
      simp only [decomposeGo, if_pos hpar]
      obtain ⟨h1, h2, h3, _⟩ := hrec
      refine ⟨h1, ?_, by omega, fun _ => by omega⟩
      have hs : (decomposeGo f (d / 2) (s0 + 1)).2 - s0 =
          ((decomposeGo f (d / 2) (s0 + 1)).2 - (s0 + 1)) + 1 := by omega
      rw [hs, pow_succ, ← mul_assoc, h2]
      omega
    · simp [decomposeGo, hpar]
      omega

lemma decompose_of_odd (n : Nat) (hn : 3 < n) (hodd : n % 2 = 1) :
    (decomposeGo (n-1) (n-1) 0).1 % 2 = 1 ∧
    (decomposeGo (n-1) (n-1) 0).1 * 2 ^ (decomposeGo (n-1) (n-1) 0).2 = n - 1 ∧
    1 ≤ (decomposeGo (n-1) (n-1) 0).2 := by
  have h := decomposeGo_spec (n-1) (n-1) 0 (by omega)
    (le_of_lt (Nat.lt_two_pow (n-1)))
  obtain ⟨h1, h2, _, h4⟩ := h
  refine ⟨h1, by simpa using h2, ?_⟩
  have : (0:Nat) < (decomposeGo (n-1) (n-1) 0).2 := h4 (by omega)
  omega

/-! ## ZMod bridges used for the soundness of a Miller-Rabin round -/

lemma zmod_val_natPow (n a e : Nat) [NeZero n] :
    ((a : ZMod n) ^ e).val = a ^ e % n := by
  rw [← Nat.cast_pow, ZMod.val_natCast]

lemma zmod_neg_one_val (n : Nat) (hn : 2 ≤ n) : (-1 : ZMod n).val = n - 1 := by
  obtain ⟨m, rfl⟩ : ∃ m, n = m + 1 := ⟨n - 1, by omega⟩
  exact ZMod.val_neg_one m

lemma mod_exp_square (n : Nat) [NeZero n] (hn : 2 ≤ n) (z : ZMod n) :
    mod_exp z.val 2 n = some ((z * z).val) := by
  rw [mod_exp_eq_pow_mod _ _ _ (by omega) (by omega), ZMod.val_mul, pow_two]

/-- Soundness of one round on a prime candidate: with a valid random draw,
the round of `miller_rabin_thread` can never declare a prime composite. -/
lemma mrRound_passes_of_prime (n d s a : Nat) (hp : Nat.Prime n) (hn : 5 ≤ n)
    (hdodd : d % 2 = 1) (hds : d * 2 ^ s = n - 1) (hs : 1 ≤ s)
    (ha2 : 2 ≤ a) (halt : a < n - 2) :
    mrRound n d s a = some true := by
  haveI hfact : Fact (Nat.Prime n) := ⟨hp⟩
  haveI : Fact (1 < n) := ⟨by omega⟩
  haveI : NeZero n := ⟨by omega⟩
  have hd1 : 1 ≤ d := by omega
  set A : ZMod n := (a : ZMod n) with hA
  have hAval : A.val = a := by
    rw [hA, ZMod.val_natCast, Nat.mod_eq_of_lt (by omega)]
  have hA0 : A ≠ 0 := by
    intro h
    rw [h, ZMod.val_zero] at hAval
    omega
  have hval1 : (1 : ZMod n).val = 1 := ZMod.val_one n
  have hvalm1 : (-1 : ZMod n).val = n - 1 := zmod_neg_one_val n (by omega)
  have hinj := ZMod.val_injective n
  -- the sequence of squarings, in ZMod n
  have hsq : ∀ u : Nat, A ^ (d * 2 ^ (u+1)) = A ^ (d * 2 ^ u) * A ^ (d * 2 ^ u) := by
    intro u
    rw [← pow_add]
    congr 1
    rw [pow_succ]
    ring
  have hfer : A ^ (d * 2 ^ s) = 1 := by
    rw [hds]
    exact ZMod.pow_card_sub_one_eq_one hA0
  -- unfold the round
  unfold mrRound
  rw [mod_exp_eq_pow_mod _ _ _ (by omega) hd1, ← zmod_val_natPow]
  simp only [Option.some_bind]
  by_cases hx0 : (A ^ d).val = 1 ∨ (A ^ d).val = n - 1
  · rw [if_pos hx0]
  · rw [if_neg hx0]
    push_neg at hx0
    have hAd1 : A ^ d ≠ 1 := fun h => hx0.1 (by rw [h, hval1])
    have hAdm1 : A ^ d ≠ -1 := fun h => hx0.2 (by rw [h, hvalm1])
    -- j = least exponent of 2 with A ^ (d * 2 ^ j) = 1
    have hex : ∃ j, A ^ (d * 2 ^ j) = 1 := ⟨s, hfer⟩
    have hPj : A ^ (d * 2 ^ Nat.find hex) = 1 := Nat.find_spec hex
    have hmin : ∀ u, u < Nat.find hex → A ^ (d * 2 ^ u) ≠ 1 :=
      fun u hu => Nat.find_min hex hu
    have hjs : Nat.find hex ≤ s := Nat.find_min' hex hfer
    have hj0 : Nat.find hex ≠ 0 := by
      intro h
      rw [h] at hPj
      simp only [pow_zero, mul_one] at hPj
      exact hAd1 hPj
    have hj1 : Nat.find hex ≠ 1 := by
      intro h
      rw [h] at hPj
      have h01 : A ^ (d * 2 ^ (0+1)) = 1 := by simpa using hPj
      rw [hsq 0] at h01
      simp only [pow_zero, mul_one] at h01
      rcases mul_self_eq_one_iff.mp h01 with h' | h'
      · exact hAd1 h'
      · exact hAdm1 h'
    -- t = find - 1 : the step where the loop sees n - 1
    have htj : (Nat.find hex - 1) + 1 = Nat.find hex := by omega
    have ht1 : 1 ≤ Nat.find hex - 1 := by omega
    have hts : Nat.find hex - 1 ≤ s - 1 := by omega
    have hAt : A ^ (d * 2 ^ (Nat.find hex - 1)) = -1 := by
      have hne1 : A ^ (d * 2 ^ (Nat.find hex - 1)) ≠ 1 := hmin _ (by omega)
      have hsq1 : A ^ (d * 2 ^ (Nat.find hex - 1)) *
          A ^ (d * 2 ^ (Nat.find hex - 1)) = 1 := by
        rw [← hsq (Nat.find hex - 1), htj]
        exact hPj
      rcases mul_self_eq_one_iff.mp hsq1 with h' | h'
      · exact absurd h' hne1
      · exact h'
    have hnotm1 : ∀ u, u + 1 < Nat.find hex - 1 → A ^ (d * 2 ^ (u+1)) ≠ -1 := by
      intro u hu h
      have : A ^ (d * 2 ^ (u+2)) = 1 := by
        rw [hsq (u+1), h]
        ring
      exact hmin (u+2) (by omega) this
    -- the inner loop reaches n - 1 at step t and passes
    have loop : ∀ fuel u, u < Nat.find hex - 1 → Nat.find hex - 1 ≤ u + fuel →
        mrInnerFuel n s fuel ((A ^ (d * 2 ^ u)).val) u = some true := by
      intro fuel
      induction fuel with
      | zero => intro u h1 h2; omega
      | succ f ih =>
        intro u hut htf
        unfold mrInnerFuel
        rw [mod_exp_square n (by omega), ← hsq u]
        simp only [Option.some_bind]
        have hne1 : (A ^ (d * 2 ^ (u+1))).val ≠ 1 := by
          intro h
          exact hmin (u+1) (by omega) (hinj (by rw [h, hval1]))
        have hnsm1 : u ≠ s - 1 := by omega
        rw [if_neg (by tauto)]
        by_cases hut1 : u + 1 = Nat.find hex - 1
        · rw [if_pos]
          rw [hut1, hAt, hvalm1]
        · have hne : (A ^ (d * 2 ^ (u+1))).val ≠ n - 1 := by
            intro h
            exact hnotm1 u (by omega) (hinj (by rw [h, hvalm1]))
          rw [if_neg hne]
          exact ih (u+1) (by omega) (by omega)
    have h0 := loop s 0 (by omega) (by omega)
    simpa using h0

lemma mrLoop_all_pass (n d s : Nat) (ws : Nat → Nat)
    (h : ∀ j, mrRound n d s (ws j) = some true) :
    ∀ rem j0, mrLoop n d s ws j0 rem = some true := by
  intro rem
  induction rem with
  | zero => intro j0; rfl
  | succ r ih =>
    intro j0
    unfold mrLoop
    rw [h j0]
    simpa using ih (j0 + 1)

lemma joinWorkers_all_true (l : List (Option Bool))
    (h : ∀ r ∈ l, r = some true) : joinWorkers l = some true := by
  induction l with
  | nil => rfl
  | cons r rest ih =>
    have hr := h r (by simp)
    have hrest := ih (fun x hx => h x (by simp [hx]))
    unfold joinWorkers
    rw [hr, hrest]
    rfl

/-- For a prime `n > 3` and valid random draws, `miller_rabin` returns
`some true` in both the sequential and the threaded mode, for every round
count `k`. -/
lemma miller_rabin_prime (n k : Nat) (thread : Bool) (ws : Nat → Nat → Nat)
    (hp : Nat.Prime n) (hn : 3 < n)
    (hws : ∀ w j, validWitness n (ws w j)) :
    miller_rabin n k thread ws = some true := by
  have hn5 : 5 ≤ n := by
    rcases Nat.lt_or_ge n 5 with h | h
    · interval_cases n
      · exact absurd hp (by decide)
    · exact h
  have hodd : n % 2 = 1 := by
    rcases hp.eq_two_or_odd with h | h
    · omega
    · exact h
  obtain ⟨hd, hds, hs⟩ := decompose_of_odd n hn hodd
  have hround : ∀ w j, mrRound n (decomposeGo (n-1) (n-1) 0).1
      (decomposeGo (n-1) (n-1) 0).2 (ws w j) = some true := by
    intro w j
    exact mrRound_passes_of_prime n _ _ (ws w j) hp hn5 hd hds hs
      (hws w j).1 (hws w j).2
  unfold miller_rabin
  cases thread with
  | false =>
    simp only [Bool.false_eq_true, if_false]
    exact mrLoop_all_pass n _ _ (ws 0) (fun j => hround 0 j) k 0
  | true =>
    simp only [if_true]
    apply joinWorkers_all_true
    intro r hr
    rw [List.mem_map] at hr
    obtain ⟨w, _, rfl⟩ := hr
    exact mrLoop_all_pass n _ _ (ws w) (fun j => hround w j) (k / 8) 0

/-- For a prime `n` and valid random draws, `is_prime_helper` answers
`some true` in both modes. -/
lemma is_prime_helper_prime (n : Nat) (thread : Bool) (ws : Nat → Nat → Nat)
    (hp : Nat.Prime n) (hws : 3 < n → ∀ w j, validWitness n (ws w j)) :
    is_prime_helper n thread ws = some true := by
  unfold is_prime_helper
  by_cases h32 : n = 3 ∨ n = 2
  · rw [if_pos h32]
  · rw [if_neg h32]
    have hn : 3 < n := by
      rcases Nat.lt_or_ge n 4 with h | h
      · interval_cases n
        · exact absurd hp (by decide)
        · exact absurd hp (by decide)
        · omega
        · omega
      · omega
    have hodd : n % 2 = 1 := by
      rcases hp.eq_two_or_odd with h | h
      · omega
      · exact h
    rw [if_neg (by omega)]
    exact miller_rabin_prime n 100 thread ws hp hn (hws hn)

/-! ## The next-prime search under a truthful oracle -/

lemma next_prime_go_reaches (thread : Bool) (draws : Nat → Nat → Nat → Nat)
    (p : Nat) (hp : Nat.Prime p) :
    ∀ fuel c, c % 2 = 1 → p % 2 = 1 → c ≤ p →
      (∀ q, c ≤ q → q < p → ¬ Nat.Prime q) →
      (∀ q, c ≤ q → q ≤ p →
        is_prime_helper q thread (draws q) = some (decide (Nat.Prime q))) →
      p < c + 2 * fuel →
      next_prime_go thread draws fuel c = some p := by
  intro fuel
  induction fuel with
  | zero => intro c h1 h2 h3 h4 h5 h6; omega
  | succ f ih =>
    intro c hcodd hpodd hcp hnp horacle hfuel
    unfold next_prime_go
    rw [horacle c le_rfl hcp]
    rcases Nat.eq_or_lt_of_le hcp with hceq | hclt
    · subst hceq
      simp [hp]
    · have hcnp : ¬ Nat.Prime c := hnp c le_rfl hclt
      rw [decide_eq_false hcnp]
      exact ih (c + 2) (by omega) hpodd (by omega)
        (fun q hq1 hq2 => hnp q (by omega) hq2)
        (fun q hq1 hq2 => horacle q (by omega) hq2)
        (by omega)

/-- Behaviour of `next_prime_helper` when the (probabilistic) oracle verdicts
on all visited candidates coincide with true primality: the search lands on
`p`, the least prime strictly greater than `n`, whenever `n ≥ 2`. -/
lemma next_prime_helper_oracle (n : Nat) (thread : Bool)
    (draws : Nat → Nat → Nat → Nat) (fuel p : Nat)
    (hn : 2 ≤ n) (hp : Nat.Prime p) (hlt : n < p)
    (hleast : ∀ q, n < q → q < p → ¬ Nat.Prime q)
    (horacle : ∀ c, n < c → c ≤ p →
      is_prime_helper c thread (draws c) = some (decide (Nat.Prime c)))
    (hfuel : p < n + 1 + 2 * fuel) :
    next_prime_helper n thread draws fuel = some p := by
  have hpodd : p % 2 = 1 := by
    rcases hp.eq_two_or_odd with h | h
    · omega
    · exact h
  unfold next_prime_helper
  by_cases hpar : n % 2 = 0
  · rw [if_pos hpar]
    exact next_prime_go_reaches thread draws p hp fuel (n + 1) (by omega)
      hpodd (by omega) (fun q h1 h2 => hleast q (by omega) h2)
      (fun q h1 h2 => horacle q (by omega) h2) (by omega)
  · rw [if_neg hpar]
    have hge : n + 2 ≤ p := by omega
    exact next_prime_go_reaches thread draws p hp fuel (n + 2) (by omega)
      hpodd hge (fun q h1 h2 => hleast q (by omega) h2)
      (fun q h1 h2 => horacle q (by omega) h2) (by omega)

/-! ## Dependence of the two modes on the random draw streams -/

lemma mrLoop_congr (n d s : Nat) (ws ws' : Nat → Nat) :
    ∀ rem j0, (∀ i, j0 ≤ i → i < j0 + rem → ws i = ws' i) →
      mrLoop n d s ws j0 rem = mrLoop n d s ws' j0 rem := by
  intro rem
  induction rem with
  | zero => intro j0 h; rfl
  | succ r ih =>
    intro j0 h
    unfold mrLoop
    rw [h j0 le_rfl (by omega)]
    cases hr : mrRound n d s (ws' j0) with
    | none => rfl
    | some b =>
      cases b with
      | false => rfl
      | true =>
        simp only [Option.some_bind, if_pos rfl]
        exact ih (j0 + 1) (fun i h1 h2 => h i (by omega) (by omega))

lemma miller_rabin_threaded_congr (n k : Nat) (ws ws' : Nat → Nat → Nat)
    (h : ∀ w, w < 8 → ∀ j, j < k / 8 → ws w j = ws' w j) :
    miller_rabin n k true ws = miller_rabin n k true ws' := by
  unfold miller_rabin
  simp only [if_true]
  congr 1
  apply List.map_congr_left
  intro w hw
  rw [List.mem_range] at hw
  unfold miller_rabin_thread
  exact mrLoop_congr n _ _ (ws w) (ws' w) (k / 8) 0
    (fun i h1 h2 => h w hw i (by omega))

/-! ## Claims -/

/-- C1: Miller-Rabin has no false negatives.  For every prime candidate `n`
and every sequence of valid random draws, `miller_rabin n k thread` answers
`some true` for every round count `k` whenever `n > 3` (the callers'
precondition), and `is_prime_helper` answers `some true` on every prime in
both modes; contrapositively, a candidate the test rejects is composite. -/
theorem miller_rabin_no_false_negatives (n : Nat) (thread : Bool)
    (ws : Nat → Nat → Nat) (hp : Nat.Prime n)
    (hws : 3 < n → ∀ w j, validWitness n (ws w j)) :
    (∀ k, 3 < n → miller_rabin n k thread ws = some true) ∧
    is_prime_helper n thread ws = some true := by
  constructor
  · intro k hn
    exact miller_rabin_prime n k thread ws hp hn (hws hn)
  · exact is_prime_helper_prime n thread ws hp hws

theorem miller_rabin_no_false_negatives_witness :
    miller_rabin 5 2 false (fun _ _ => 2) = some true ∧
    is_prime_helper 5 false (fun _ _ => 2) = some true := by
  have h := miller_rabin_no_false_negatives 5 false (fun _ _ => 2)
    (by norm_num) (fun _ _ _ => show validWitness 5 2 by decide)
  exact ⟨h.1 2 (by norm_num), h.2⟩

/-- C2 counterexample: at `b = 1, e = 0, m = 1`, `mod_exp` returns 1, but
the slow reference gives `1^0 mod 1 = 0`; the result is also not in
`[0, 1)`. -/
theorem mod_exp_exp_zero_mod_one_cex :
    mod_exp 1 0 1 = some 1 ∧ pow_mod_ref 1 0 1 = 0 ∧ ¬ (1 < 1) := by
  refine ⟨rfl, rfl, by omega⟩

/-- C2 (amended): for every modulus `m ≥ 1`, outside the single corner
`e = 0 ∧ m = 1`, `mod_exp b e m` agrees with the slow repeated-multiplication
reference for `b^e mod m` and its value lies in `[0, m)`. -/
theorem mod_exp_matches_reference (b e m : Nat) (hm : 1 ≤ m)
    (h : 1 ≤ e ∨ 2 ≤ m) :
    mod_exp b e m = some (pow_mod_ref b e m) ∧ pow_mod_ref b e m < m := by
  rw [pow_mod_ref_eq]
  cases e with
  | zero =>
    rcases h with h | h
    · omega
    · rw [mod_exp_exp_zero]
      refine ⟨?_, Nat.mod_lt _ (by omega)⟩
      rw [pow_zero, Nat.mod_eq_of_lt (by omega)]
  | succ e' =>
    rw [mod_exp_eq_pow_mod b _ m hm (by omega)]
    exact ⟨rfl, Nat.mod_lt _ (by omega)⟩

theorem mod_exp_matches_reference_witness :
    mod_exp 4 13 497 = some (pow_mod_ref 4 13 497) ∧ pow_mod_ref 4 13 497 < 497 :=
  mod_exp_matches_reference 4 13 497 (by norm_num) (Or.inl (by norm_num))

/-- C4 counterexample: with exponent 0 the `while` body never runs, so
`mod_exp(0, 0, 0)` silently returns 1 instead of failing on the zero
modulus. -/
theorem mod_exp_zero_modulus_cex : mod_exp 0 0 0 = some 1 := rfl

/-- C4 (amended): `mod_exp b e 0` fails with division by zero exactly when
`e ≥ 1`; with `e = 0` it silently returns 1; for every modulus `m ≥ 1` it
returns a value on all inputs. -/
theorem mod_exp_error_conditions (b e m : Nat) :
    (1 ≤ e → mod_exp b e 0 = none) ∧
    mod_exp b 0 0 = some 1 ∧
    (1 ≤ m → (mod_exp b e m).isSome = true) := by
  refine ⟨fun he => mod_exp_mod_zero b e he, rfl, fun hm => ?_⟩
  cases e with
  | zero => rw [mod_exp_exp_zero]; rfl
  | succ e' => rw [mod_exp_eq_pow_mod b _ m hm (by omega)]; rfl

theorem mod_exp_error_conditions_witness :
    mod_exp 2 3 0 = none ∧ (mod_exp 2 3 5).isSome = true :=
  ⟨(mod_exp_error_conditions 2 3 5).1 (by norm_num),
   (mod_exp_error_conditions 2 3 5).2.2 (by norm_num)⟩

/-- C5: the policy of `is_prime_helper` on small and even candidates, for
every mode and every draw table (Miller-Rabin is never consulted in these
cases, so the answer cannot depend on it): 2 and 3 answer `true`; any
candidate below 2 answers `false`; any even candidate other than 2 answers
`false`. -/
theorem is_prime_small_policy (thread : Bool) (ws : Nat → Nat → Nat) (c : Nat) :
    is_prime_helper 2 thread ws = some true ∧
    is_prime_helper 3 thread ws = some true ∧
    (c < 2 → is_prime_helper c thread ws = some false) ∧
    (c % 2 = 0 → c ≠ 2 → is_prime_helper c thread ws = some false) := by
  refine ⟨by simp [is_prime_helper], by simp [is_prime_helper],
    fun h => ?_, fun h1 h2 => ?_⟩
  · unfold is_prime_helper
    rw [if_neg (by omega), if_pos (by omega)]
  · unfold is_prime_helper
    rw [if_neg (by omega), if_pos (by omega)]

theorem is_prime_small_policy_witness :
    is_prime_helper 2 false (fun _ _ => 0) = some true ∧
    is_prime_helper 0 false (fun _ _ => 0) = some false ∧
    is_prime_helper 4 false (fun _ _ => 0) = some false :=
  ⟨(is_prime_small_policy false (fun _ _ => 0) 0).1,
   (is_prime_small_policy false (fun _ _ => 0) 0).2.2.1 (by norm_num),
   (is_prime_small_policy false (fun _ _ => 0) 4).2.2.2 (by norm_num) (by norm_num)⟩

/-- C7 counterexample: for candidate 11 the value `n - 2 = 9` lies in the
claimed inclusive range `[2, n - 2]` yet is not a possible draw: the code
samples the half-open range `[2, n - 2)`. -/
theorem witness_range_cex :
    ¬ validWitness 11 9 ∧ 2 ≤ 9 ∧ 9 = 11 - 2 := by decide

/-- C7 (amended): every drawn witness lies in the half-open range
`[2, n - 2)`: it satisfies `2 ≤ a ≤ n - 2`, but `n - 2` itself is never
drawn. -/
theorem witness_range_half_open (n a : Nat) (h : validWitness n a) :
    2 ≤ a ∧ a ≤ n - 2 ∧ a ≠ n - 2 := by
  obtain ⟨h1, h2⟩ := h
  omega

theorem witness_range_half_open_witness :
    2 ≤ 2 ∧ 2 ≤ 11 - 2 ∧ 2 ≠ 11 - 2 :=
  witness_range_half_open 11 2 (by decide)

/-- C8: the witness decomposition `(d, s)` computed once by `miller_rabin`
for an odd candidate `n > 3` satisfies: `d` is odd, `d * 2^s = n - 1`
exactly, and `s ≥ 1`. -/
theorem witness_decomposition_invariant (n : Nat) (hn : 3 < n)
    (hodd : n % 2 = 1) :
    (decomposeGo (n-1) (n-1) 0).1 % 2 = 1 ∧
    (decomposeGo (n-1) (n-1) 0).1 * 2 ^ (decomposeGo (n-1) (n-1) 0).2 = n - 1 ∧
    1 ≤ (decomposeGo (n-1) (n-1) 0).2 :=
  decompose_of_odd n hn hodd

theorem witness_decomposition_invariant_witness :
    (decomposeGo 4 4 0).1 % 2 = 1 ∧
    (decomposeGo 4 4 0).1 * 2 ^ (decomposeGo 4 4 0).2 = 4 ∧
    1 ≤ (decomposeGo 4 4 0).2 :=
  witness_decomposition_invariant 5 (by norm_num) (by norm_num)

/-- C9: `gcdext` returns `(0, 0, 0)` unconditionally, and therefore violates
its declared contract `g = gcd(a, b) = a*x + b*y` whenever `gcd(a, b)` is
nonzero. -/
theorem gcdext_stub_violates_contract (a b : Nat) :
    gcdext a b = (0, 0, 0) ∧
    (Nat.gcd a b ≠ 0 → ¬ ((gcdext a b).1 = Nat.gcd a b ∧
      (gcdext a b).1 = a * (gcdext a b).2.1 + b * (gcdext a b).2.2)) := by
  refine ⟨rfl, fun hg hc => ?_⟩
  have h1 : (gcdext a b).1 = 0 := rfl
  rw [h1] at hc
  exact hg hc.1.symm

theorem gcdext_stub_violates_contract_witness :
    gcdext 4 6 = (0, 0, 0) ∧
    ¬ ((gcdext 4 6).1 = Nat.gcd 4 6 ∧
      (gcdext 4 6).1 = 4 * (gcdext 4 6).2.1 + 6 * (gcdext 4 6).2.2) :=
  ⟨(gcdext_stub_violates_contract 4 6).1,
   (gcdext_stub_violates_contract 4 6).2 (by norm_num)⟩

/-- C3 counterexample: `next_prime(0)` tests 1 and then 3 and returns 3
(deterministically: both candidates are short-circuited, no random draw is
consulted), yet 2 is a prime strictly between 0 and 3, so the returned
value is not the least prime above the start. -/
theorem next_prime_skips_two_cex :
    next_prime_helper 0 false (fun _ _ _ => 2) 2 = some 3 ∧
    Nat.Prime 2 ∧ 0 < 2 ∧ 2 < 3 := by
  refine ⟨by decide, by norm_num, by omega, by omega⟩

/-- C3 (amended): for every `start ≥ 2`, when the oracle verdicts on the
visited candidates coincide with true primality, `next_prime_helper`
returns exactly the least prime `p` strictly greater than `start` (given
enough fuel); the result is odd, hence never even and never `start` itself.
For `start < 2` the search never tests the candidate 2 and returns 3. -/
theorem next_prime_least_above (n : Nat) (thread : Bool)
    (draws : Nat → Nat → Nat → Nat) (fuel p : Nat)
    (hn : 2 ≤ n) (hp : Nat.Prime p) (hlt : n < p)
    (hleast : ∀ q, n < q → q < p → ¬ Nat.Prime q)
    (horacle : ∀ c, n < c → c ≤ p →
      is_prime_helper c thread (draws c) = some (decide (Nat.Prime c)))
    (hfuel : p < n + 1 + 2 * fuel) :
    next_prime_helper n thread draws fuel = some p ∧ p % 2 = 1 ∧ n < p := by
  refine ⟨next_prime_helper_oracle n thread draws fuel p hn hp hlt hleast
    horacle hfuel, ?_, hlt⟩
  rcases hp.eq_two_or_odd with h | h
  · omega
  · exact h

theorem next_prime_least_above_witness :
    next_prime_helper 2 false (fun _ _ _ => 2) 1 = some 3 ∧
    3 % 2 = 1 ∧ 2 < 3 := by
  apply next_prime_least_above 2 false (fun _ _ _ => 2) 1 3 (by norm_num)
    (by norm_num) (by norm_num) (fun q hq1 hq2 => (by omega : False).elim)
    ?_ (by norm_num)
  intro c hc1 hc2
  have hc : c = 3 := by omega
  subst hc
  decide

/-- C6 counterexample: with start 2045 there are random-draw sequences on
which the sequential search returns 2047 (= 23 * 89, a strong pseudoprime
to base 2, accepted when every draw is 2) while the threaded search
rejects 2047 (witness 3) and continues to 2053: the two variants are not
guaranteed to return identical values across runs. -/
theorem next_prime_threaded_disagree_cex :
    next_prime_helper 2045 false (fun _ _ _ => 2) 4 = some 2047 ∧
    next_prime_helper 2045 true (fun c _ _ => if c = 2047 then 3 else 2) 4
      = some 2053 ∧
    (2047 : Nat) ≠ 2053 := by
  refine ⟨by decide, by decide, by omega⟩

/-- C6 (amended): the sequential and the threaded search agree whenever
both runs' oracle verdicts on the visited candidates coincide with true
primality; with the code's 100-round test this holds with overwhelming
probability, but it is not unconditional (see the counterexample). -/
theorem next_prime_threaded_agreement (n : Nat)
    (draws1 draws2 : Nat → Nat → Nat → Nat) (fuel p : Nat)
    (hn : 2 ≤ n) (hp : Nat.Prime p) (hlt : n < p)
    (hleast : ∀ q, n < q → q < p → ¬ Nat.Prime q)
    (h1 : ∀ c, n < c → c ≤ p →
      is_prime_helper c false (draws1 c) = some (decide (Nat.Prime c)))
    (h2 : ∀ c, n < c → c ≤ p →
      is_prime_helper c true (draws2 c) = some (decide (Nat.Prime c)))
    (hfuel : p < n + 1 + 2 * fuel) :
    next_prime_helper n false draws1 fuel = next_prime_helper n true draws2 fuel := by
  rw [next_prime_helper_oracle n false draws1 fuel p hn hp hlt hleast h1 hfuel,
    next_prime_helper_oracle n true draws2 fuel p hn hp hlt hleast h2 hfuel]

theorem next_prime_threaded_agreement_witness :
    next_prime_helper 2 false (fun _ _ _ => 2) 1 =
      next_prime_helper 2 true (fun _ _ _ => 2) 1 := by
  apply next_prime_threaded_agreement 2 (fun _ _ _ => 2) (fun _ _ _ => 2) 1 3
    (by norm_num) (by norm_num) (by norm_num)
    (fun q hq1 hq2 => (by omega : False).elim) ?_ ?_ (by norm_num)
  all_goals
    intro c hc1 hc2
    have hc : c = 3 := by omega
    subst hc
    decide

/-- C10: in parallel mode `miller_rabin` spawns exactly 8 workers, each
performing `k / 8` rounds, so with the fixed round count 100 used by
`is_prime` the threaded verdict is a function of only the
`8 * (100 / 8) = 96` draws `ws w j` with `w < 8`, `j < 100 / 8`; the
sequential path runs more rounds with the same `k`: on candidate 2047 its
verdict still depends on draw index 96 (the first 96 base-2 rounds all
pass). -/
theorem threaded_round_budget :
    (∀ (n : Nat) (ws ws' : Nat → Nat → Nat),
      (∀ w, w < 8 → ∀ j, j < 100 / 8 → ws w j = ws' w j) →
      miller_rabin n 100 true ws = miller_rabin n 100 true ws') ∧
    8 * (100 / 8) = 96 ∧
    miller_rabin 2047 100 false (fun _ _ => 2) = some true ∧
    miller_rabin 2047 100 false
      (fun w j => if w = 0 ∧ j = 96 then 3 else 2) = some false := by
  refine ⟨fun n ws ws' h => miller_rabin_threaded_congr n 100 ws ws' h,
    by norm_num, by decide, by decide⟩

theorem threaded_round_budget_witness :
    miller_rabin 9 100 true (fun _ _ => 2) =
      miller_rabin 9 100 true (fun _ j => if j < 12 then 2 else 99) :=
  threaded_round_budget.1 9 (fun _ _ => 2) (fun _ j => if j < 12 then 2 else 99)
    (fun w hw j hj => by
      have hj12 : j < 12 := hj
      simp [hj12])
